import Mathlib

/-!
# Verification of the projection and viewing matrix library

This development embeds the matrix-building and coordinate-mapping functions
declared in `src/Engine/Source/Core/math/glm/gtc/matrix_transform_ex.hpp`
(namespace `glm`) and proves the properties stated about them.

The header holds declarations only; the implementation file
`matrix_transform_ex.inl` is not part of the sources, so every function body
below is reconstructed from the specification (each doc comment says so).
Scalars are modelled by the real numbers; matrices are `Matrix (Fin 4) (Fin 4) ℝ`
in mathematical row-column indexing, acting on column vectors by `Matrix.mulVec`.
-/

namespace glm

/-- A 4x4 real matrix (the embedding of `tmat4x4<T>`). -/
abbrev M4 : Type := Matrix (Fin 4) (Fin 4) ℝ

/-- A 3-component real vector (the embedding of `tvec3<T>`). -/
abbrev V3 : Type := Fin 3 → ℝ

/-- A 4-component real vector (the embedding of `tvec4<T>`). -/
abbrev V4 : Type := Fin 4 → ℝ

/-- Modelled from the spec: the implementation file `matrix_transform_ex.inl` is
missing, and the spec says `ortho` and friends dispatch to "the library's
configured default handedness".  The spec fixes the default by stating that
`ortho` maps the box `[left,right] x [bottom,top] x [zNear,zFar]` directly to the
canonical clip cube (near face to the near depth), which is the left-handed
convention, so the configured default is modelled as left-handed. -/
def leftHandedDefault : Bool := true

/-- Modelled from the spec: body of `orthoLH` (the implementation file
`matrix_transform_ex.inl` is missing).  Maps the axis-aligned box
`[left,right] x [bottom,top] x [zNear,zFar]` to the canonical clip cube under the
left-handed convention; the `_oglNdc` flag selects whether the depth range is
`[-1,1]` (`true`) or `[0,1]` (`false`). -/
noncomputable def orthoLH (left right bottom top zNear zFar : ℝ) (oglNdc : Bool) : M4 :=
  !![2 / (right - left), 0, 0, -(right + left) / (right - left);
     0, 2 / (top - bottom), 0, -(top + bottom) / (top - bottom);
     0, 0, (if oglNdc then 2 else 1) / (zFar - zNear),
       (if oglNdc then -(zFar + zNear) else -zNear) / (zFar - zNear);
     0, 0, 0, 1]

/-- Modelled from the spec: body of `orthoRH` (the implementation file
`matrix_transform_ex.inl` is missing).  Same as `orthoLH` except for the sign of
the depth-scale term, which flips the view direction to the right-handed
convention. -/
noncomputable def orthoRH (left right bottom top zNear zFar : ℝ) (oglNdc : Bool) : M4 :=
  !![2 / (right - left), 0, 0, -(right + left) / (right - left);
     0, 2 / (top - bottom), 0, -(top + bottom) / (top - bottom);
     0, 0, -((if oglNdc then 2 else 1) / (zFar - zNear)),
       (if oglNdc then -(zFar + zNear) else -zNear) / (zFar - zNear);
     0, 0, 0, 1]

/-- Modelled from the spec: body of `ortho` (six-argument overload; the
implementation file `matrix_transform_ex.inl` is missing).  Dispatches to the
library's configured default handedness. -/
noncomputable def ortho (left right bottom top zNear zFar : ℝ) (oglNdc : Bool) : M4 :=
  if leftHandedDefault then orthoLH left right bottom top zNear zFar oglNdc
  else orthoRH left right bottom top zNear zFar oglNdc

/-- Modelled from the spec: body of the two-dimensional `ortho` overload (the
implementation file `matrix_transform_ex.inl` is missing).  The spec says the 2D
overload "assumes a unit depth range", i.e. a depth span of length one,
modelled as the span `[0,1]`. -/
noncomputable def ortho2D (left right bottom top : ℝ) (oglNdc : Bool) : M4 :=
  !![2 / (right - left), 0, 0, -(right + left) / (right - left);
     0, 2 / (top - bottom), 0, -(top + bottom) / (top - bottom);
     0, 0, (if oglNdc then 2 else 1), (if oglNdc then -1 else 0);
     0, 0, 0, 1]

/-- Modelled from the spec: body of `frustumLH` (the implementation file
`matrix_transform_ex.inl` is missing).  Asymmetric perspective projection from
six clip-plane distances, left-handed, with the `_oglNdc` depth-range flag. -/
noncomputable def frustumLH (left right bottom top near far : ℝ) (oglNdc : Bool) : M4 :=
  !![2 * near / (right - left), 0, (right + left) / (right - left), 0;
     0, 2 * near / (top - bottom), (top + bottom) / (top - bottom), 0;
     0, 0, (if oglNdc then far + near else far) / (far - near),
       (if oglNdc then -(2 * far * near) else -(far * near)) / (far - near);
     0, 0, 1, 0]

/-- Modelled from the spec: body of `frustumRH` (the implementation file
`matrix_transform_ex.inl` is missing).  Right-handed variant of `frustumLH`. -/
noncomputable def frustumRH (left right bottom top near far : ℝ) (oglNdc : Bool) : M4 :=
  !![2 * near / (right - left), 0, (right + left) / (right - left), 0;
     0, 2 * near / (top - bottom), (top + bottom) / (top - bottom), 0;
     0, 0, (if oglNdc then -(far + near) else -far) / (far - near),
       (if oglNdc then -(2 * far * near) else -(far * near)) / (far - near);
     0, 0, -1, 0]

/-- Modelled from the spec: body of `frustum` (the implementation file
`matrix_transform_ex.inl` is missing).  Dispatches to the library's configured
default handedness. -/
noncomputable def frustum (left right bottom top near far : ℝ) (oglNdc : Bool) : M4 :=
  if leftHandedDefault then frustumLH left right bottom top near far oglNdc
  else frustumRH left right bottom top near far oglNdc

/-- Modelled from the spec: body of `perspectiveLH` (the implementation file
`matrix_transform_ex.inl` is missing).  Symmetric perspective matrix from the
vertical field of view `fovy` (radians, applied directly to the real tangent),
the aspect ratio, and the near/far clip distances. -/
noncomputable def perspectiveLH (fovy aspect near far : ℝ) (oglNdc : Bool) : M4 :=
  !![1 / (aspect * Real.tan (fovy / 2)), 0, 0, 0;
     0, 1 / Real.tan (fovy / 2), 0, 0;
     0, 0, (if oglNdc then far + near else far) / (far - near),
       (if oglNdc then -(2 * far * near) else -(far * near)) / (far - near);
     0, 0, 1, 0]

/-- Modelled from the spec: body of `perspectiveRH` (the implementation file
`matrix_transform_ex.inl` is missing).  Right-handed variant of
`perspectiveLH`; the field of view is interpreted in radians exactly as there. -/
noncomputable def perspectiveRH (fovy aspect near far : ℝ) (oglNdc : Bool) : M4 :=
  !![1 / (aspect * Real.tan (fovy / 2)), 0, 0, 0;
     0, 1 / Real.tan (fovy / 2), 0, 0;
     0, 0, (if oglNdc then -(far + near) else -far) / (far - near),
       (if oglNdc then -(2 * far * near) else -(far * near)) / (far - near);
     0, 0, -1, 0]

/-- Modelled from the spec: body of `perspective` (the implementation file
`matrix_transform_ex.inl` is missing).  Dispatches to the library's configured
default handedness. -/
noncomputable def perspective (fovy aspect near far : ℝ) (oglNdc : Bool) : M4 :=
  if leftHandedDefault then perspectiveLH fovy aspect near far oglNdc
  else perspectiveRH fovy aspect near far oglNdc

/-- Modelled from the spec: body of `perspectiveFovLH` (the implementation file
`matrix_transform_ex.inl` is missing).  Same as `perspectiveLH` but from explicit
`width` and `height`, avoiding the caller-side division that forms the aspect
ratio: the scales are computed as `h = cos(fov/2)/sin(fov/2)` and
`w = h * height / width`. -/
noncomputable def perspectiveFovLH (fov width height near far : ℝ) (oglNdc : Bool) : M4 :=
  !![Real.cos (fov / 2) / Real.sin (fov / 2) * height / width, 0, 0, 0;
     0, Real.cos (fov / 2) / Real.sin (fov / 2), 0, 0;
     0, 0, (if oglNdc then far + near else far) / (far - near),
       (if oglNdc then -(2 * far * near) else -(far * near)) / (far - near);
     0, 0, 1, 0]

/-- Modelled from the spec: body of `perspectiveFovRH` (the implementation file
`matrix_transform_ex.inl` is missing).  Right-handed variant of
`perspectiveFovLH`. -/
noncomputable def perspectiveFovRH (fov width height near far : ℝ) (oglNdc : Bool) : M4 :=
  !![Real.cos (fov / 2) / Real.sin (fov / 2) * height / width, 0, 0, 0;
     0, Real.cos (fov / 2) / Real.sin (fov / 2), 0, 0;
     0, 0, (if oglNdc then -(far + near) else -far) / (far - near),
       (if oglNdc then -(2 * far * near) else -(far * near)) / (far - near);
     0, 0, -1, 0]

/-- Modelled from the spec: body of `perspectiveFov` (the implementation file
`matrix_transform_ex.inl` is missing).  Dispatches to the library's configured
default handedness. -/
noncomputable def perspectiveFov (fov width height near far : ℝ) (oglNdc : Bool) : M4 :=
  if leftHandedDefault then perspectiveFovLH fov width height near far oglNdc
  else perspectiveFovRH fov width height near far oglNdc

/-- Homogeneous extension of a 3-component point with `w = 1`
(the embedding of `tvec4<T>(obj, T(1))`). -/
noncomputable def homog (p : V3) : V4 := ![p 0, p 1, p 2, 1]

/-- Normalized depth of a point under a projection matrix: the `z` component of
`M * (p, 1)` after the perspective divide by its `w` component. -/
noncomputable def ndcDepth (M : M4) (p : V3) : ℝ :=
  M.mulVec (homog p) 2 / M.mulVec (homog p) 3

/-- Full normalized-device-coordinate image of a point under a projection
matrix: `M * (p, 1)` after the perspective divide by its `w` component. -/
noncomputable def ndcPoint (M : M4) (p : V3) : V3 :=
  ![M.mulVec (homog p) 0 / M.mulVec (homog p) 3,
    M.mulVec (homog p) 1 / M.mulVec (homog p) 3,
    M.mulVec (homog p) 2 / M.mulVec (homog p) 3]

/-- Modelled from the spec: body of `project` (the implementation file
`matrix_transform_ex.inl` is missing).  Maps an object-space point through
`model` then `proj`, performs the perspective divide, maps `x`/`y` into the
viewport rectangle `(x, y, width, height)`, and returns the depth in the range
already selected by the matrix's NDC convention (the spec's example maps the
centre of the near plane to window depth `-1` under `ndc=true` and `0` under
`ndc=false`, so the depth component passes through unchanged). -/
noncomputable def project (obj : V3) (model proj : M4) (viewport : V4) (_oglNdc : Bool) : V3 :=
  let tmp := proj.mulVec (model.mulVec (homog obj))
  ![(tmp 0 / tmp 3 * (1 / 2) + 1 / 2) * viewport 2 + viewport 0,
    (tmp 1 / tmp 3 * (1 / 2) + 1 / 2) * viewport 3 + viewport 1,
    tmp 2 / tmp 3]

/-- Modelled from the spec: body of `unProject` (the implementation file
`matrix_transform_ex.inl` is missing).  Exact inverse of `project`: undoes the
viewport mapping on `x`/`y`, keeps the depth in the convention's range, and maps
the normalized point through the inverse of `proj * model` followed by the
perspective divide. -/
noncomputable def unProject (win : V3) (model proj : M4) (viewport : V4) (_oglNdc : Bool) : V3 :=
  let inv := (proj * model)⁻¹
  let ndc : V4 := ![(win 0 - viewport 0) / viewport 2 * 2 - 1,
                    (win 1 - viewport 1) / viewport 3 * 2 - 1,
                    win 2, 1]
  let obj := inv.mulVec ndc
  ![obj 0 / obj 3, obj 1 / obj 3, obj 2 / obj 3]

/-- Modelled from the spec: `project` for a viewport of arbitrary component type
`U` (floating-point or integer), as in the C++ template parameter `U`; the
viewport components are converted to the computation scalar type by `toT`
(the embedding of `T(viewport[i])`) exactly where the rectangle is read. -/
noncomputable def projectU {U : Type} (toT : U → ℝ) (obj : V3) (model proj : M4)
    (viewport : Fin 4 → U) (_oglNdc : Bool) : V3 :=
  let tmp := proj.mulVec (model.mulVec (homog obj))
  ![(tmp 0 / tmp 3 * (1 / 2) + 1 / 2) * toT (viewport 2) + toT (viewport 0),
    (tmp 1 / tmp 3 * (1 / 2) + 1 / 2) * toT (viewport 3) + toT (viewport 1),
    tmp 2 / tmp 3]

/-- Modelled from the spec: `unProject` for a viewport of arbitrary component
type `U`, converting the viewport components to the computation scalar type by
`toT` exactly where the rectangle is read. -/
noncomputable def unProjectU {U : Type} (toT : U → ℝ) (win : V3) (model proj : M4)
    (viewport : Fin 4 → U) (_oglNdc : Bool) : V3 :=
  let inv := (proj * model)⁻¹
  let ndc : V4 := ![(win 0 - toT (viewport 0)) / toT (viewport 2) * 2 - 1,
                    (win 1 - toT (viewport 1)) / toT (viewport 3) * 2 - 1,
                    win 2, 1]
  let obj := inv.mulVec ndc
  ![obj 0 / obj 3, obj 1 / obj 3, obj 2 / obj 3]

/-- A sample invertible projection-like matrix whose clip `w` component equals
the view-space `z` coordinate (its bottom row is `(0,0,1,0)`), used to exercise
`project` and `unProject` at concrete inputs. -/
noncomputable def sampleProj : M4 := !![1, 0, 0, 0; 0, 1, 0, 0; 0, 0, 2, -1; 0, 0, 1, 0]

/-- The inverse of `sampleProj`. -/
noncomputable def sampleProjInv : M4 := !![1, 0, 0, 0; 0, 1, 0, 0; 0, 0, 0, 1; 0, 0, -1, 2]

/-- Helper: the normalized-device-coordinate image of a point under `orthoLH`
is the componentwise affine map given by the matrix rows (the `w` row of an
orthographic matrix is constantly `1`). -/
theorem orthoLH_ndcPoint (left right bottom top zNear zFar X Y Z : ℝ) (oglNdc : Bool) :
    ndcPoint (orthoLH left right bottom top zNear zFar oglNdc) ![X, Y, Z] =
      ![2 / (right - left) * X + -(right + left) / (right - left),
        2 / (top - bottom) * Y + -(top + bottom) / (top - bottom),
        (if oglNdc then 2 else 1) / (zFar - zNear) * Z +
          (if oglNdc then -(zFar + zNear) else -zNear) / (zFar - zNear)] := by
  funext i
  fin_cases i <;>
    simp [ndcPoint, orthoLH, homog, Matrix.mulVec, Matrix.dotProduct, Fin.sum_univ_four]

/-- C3: for `left < right`, `bottom < top`, `zNear < zFar` and either NDC flag,
`ortho` maps each corner of the box `[left,right] x [bottom,top] x [zNear,zFar]`
to the corresponding corner of the canonical clip cube: `left/right` to `-1/1`
in `x`, `bottom/top` to `-1/1` in `y`, the near face to depth `-1` when the flag
is `true` and `0` when it is `false`, and the far face to depth `1` in both
cases. -/
theorem ortho_maps_box_corners_to_clip_cube
    (left right bottom top zNear zFar : ℝ) (oglNdc cx cy cz : Bool)
    (hlr : left < right) (hbt : bottom < top) (hnf : zNear < zFar) :
    ndcPoint (ortho left right bottom top zNear zFar oglNdc)
      ![cond cx right left, cond cy top bottom, cond cz zFar zNear] =
      ![cond cx 1 (-1), cond cy 1 (-1),
        cond cz 1 (if oglNdc then -1 else 0)] := by
  have h1 : right - left ≠ 0 := sub_ne_zero.mpr hlr.ne'
  have h2 : top - bottom ≠ 0 := sub_ne_zero.mpr hbt.ne'
  have h3 : zFar - zNear ≠ 0 := sub_ne_zero.mpr hnf.ne'
  have hd : ortho left right bottom top zNear zFar oglNdc =
      orthoLH left right bottom top zNear zFar oglNdc := by
    simp [ortho, leftHandedDefault]
  rw [hd, orthoLH_ndcPoint]
  funext i
  fin_cases i
  · cases cx <;> simp <;> field_simp <;> ring
  · cases cy <;> simp <;> field_simp <;> ring
  · cases cz <;> cases oglNdc <;> simp <;> field_simp <;> ring

/-- Witness for `ortho_maps_box_corners_to_clip_cube` at a concrete box. -/
theorem ortho_maps_box_corners_to_clip_cube_witness :
    (0 : ℝ) < 1 ∧ (0 : ℝ) < 2 ∧ (0 : ℝ) < 3 ∧
    ndcPoint (ortho 0 1 0 2 0 3 true) ![1, 2, 3] = ![1, 1, 1] :=
  ⟨by norm_num, by norm_num, by norm_num,
    ortho_maps_box_corners_to_clip_cube 0 1 0 2 0 3 true true true true
      (by norm_num) (by norm_num) (by norm_num)⟩

/-- C6: for all arguments and either NDC flag, `orthoRH` agrees with `orthoLH`
in every entry except the depth-scale entry (row 2, column 2), where the sign is
flipped (the view-direction term), and `ortho` equals `orthoLH`, the variant
matching the library's configured default handedness. -/
theorem ortho_handedness_consistency
    (left right bottom top zNear zFar : ℝ) (oglNdc : Bool) (i j : Fin 4) :
    (orthoRH left right bottom top zNear zFar oglNdc i j =
      if i = 2 ∧ j = 2 then -(orthoLH left right bottom top zNear zFar oglNdc i j)
      else orthoLH left right bottom top zNear zFar oglNdc i j) ∧
    ortho left right bottom top zNear zFar oglNdc =
      orthoLH left right bottom top zNear zFar oglNdc := by
  constructor
  · fin_cases i <;> fin_cases j <;> simp [orthoRH, orthoLH]
  · simp [ortho, leftHandedDefault]

/-- C8: the two-dimensional `ortho` overload equals the six-argument `ortho`
applied to the unit depth span `[0, 1]` (a depth span of length one), for all
arguments and either NDC flag. -/
theorem ortho2D_unit_depth_span (left right bottom top : ℝ) (oglNdc : Bool) :
    ortho2D left right bottom top oglNdc =
      ortho left right bottom top 0 1 oglNdc := by
  ext i j
  fin_cases i <;> fin_cases j <;> cases oglNdc <;>
    simp [ortho2D, ortho, leftHandedDefault, orthoLH]

/-- Helper: depth of a point on the plane `z = zNear` under `orthoLH`. -/
theorem orthoLH_depth_near (left right bottom top zNear zFar x y : ℝ) (oglNdc : Bool)
    (hnf : zFar ≠ zNear) :
    ndcDepth (orthoLH left right bottom top zNear zFar oglNdc) ![x, y, zNear] =
      if oglNdc then -1 else 0 := by
  have hd : zFar - zNear ≠ 0 := sub_ne_zero.mpr hnf
  simp [ndcDepth, orthoLH, homog, Matrix.mulVec, Matrix.dotProduct, Fin.sum_univ_four]
  cases oglNdc <;> simp <;> field_simp <;> ring

/-- Helper: depth of a point on the plane `z = zFar` under `orthoLH`. -/
theorem orthoLH_depth_far (left right bottom top zNear zFar x y : ℝ) (oglNdc : Bool)
    (hnf : zFar ≠ zNear) :
    ndcDepth (orthoLH left right bottom top zNear zFar oglNdc) ![x, y, zFar] = 1 := by
  have hd : zFar - zNear ≠ 0 := sub_ne_zero.mpr hnf
  simp [ndcDepth, orthoLH, homog, Matrix.mulVec, Matrix.dotProduct, Fin.sum_univ_four]
  cases oglNdc <;> simp <;> field_simp <;> ring

/-- Helper: depth of a point on the near plane `z = -zNear` under `orthoRH`
(the right-handed box lies along the negative view axis). -/
theorem orthoRH_depth_near (left right bottom top zNear zFar x y : ℝ) (oglNdc : Bool)
    (hnf : zFar ≠ zNear) :
    ndcDepth (orthoRH left right bottom top zNear zFar oglNdc) ![x, y, -zNear] =
      if oglNdc then -1 else 0 := by
  have hd : zFar - zNear ≠ 0 := sub_ne_zero.mpr hnf
  simp [ndcDepth, orthoRH, homog, Matrix.mulVec, Matrix.dotProduct, Fin.sum_univ_four]
  cases oglNdc <;> simp <;> field_simp <;> ring

/-- Helper: depth of a point on the far plane `z = -zFar` under `orthoRH`. -/
theorem orthoRH_depth_far (left right bottom top zNear zFar x y : ℝ) (oglNdc : Bool)
    (hnf : zFar ≠ zNear) :
    ndcDepth (orthoRH left right bottom top zNear zFar oglNdc) ![x, y, -zFar] = 1 := by
  have hd : zFar - zNear ≠ 0 := sub_ne_zero.mpr hnf
  simp [ndcDepth, orthoRH, homog, Matrix.mulVec, Matrix.dotProduct, Fin.sum_univ_four]
  cases oglNdc <;> simp <;> field_simp <;> ring

/-- Helper: depth of a point on the near plane `z = near` under `frustumLH`. -/
theorem frustumLH_depth_near (left right bottom top near far x y : ℝ) (oglNdc : Bool)
    (hn : near ≠ 0) (hnf : far ≠ near) :
    ndcDepth (frustumLH left right bottom top near far oglNdc) ![x, y, near] =
      if oglNdc then -1 else 0 := by
  have hd : far - near ≠ 0 := sub_ne_zero.mpr hnf
  simp [ndcDepth, frustumLH, homog, Matrix.mulVec, Matrix.dotProduct, Fin.sum_univ_four]
  cases oglNdc <;> simp <;> field_simp <;> ring

/-- Helper: depth of a point on the far plane `z = far` under `frustumLH`. -/
theorem frustumLH_depth_far (left right bottom top near far x y : ℝ) (oglNdc : Bool)
    (hf : far ≠ 0) (hnf : far ≠ near) :
    ndcDepth (frustumLH left right bottom top near far oglNdc) ![x, y, far] = 1 := by
  have hd : far - near ≠ 0 := sub_ne_zero.mpr hnf
  simp [ndcDepth, frustumLH, homog, Matrix.mulVec, Matrix.dotProduct, Fin.sum_univ_four]
  cases oglNdc <;> simp <;> field_simp <;> ring

/-- Helper: depth of a point on the near plane `z = -near` under `frustumRH`. -/
theorem frustumRH_depth_near (left right bottom top near far x y : ℝ) (oglNdc : Bool)
    (hn : near ≠ 0) (hnf : far ≠ near) :
    ndcDepth (frustumRH left right bottom top near far oglNdc) ![x, y, -near] =
      if oglNdc then -1 else 0 := by
  have hd : far - near ≠ 0 := sub_ne_zero.mpr hnf
  simp [ndcDepth, frustumRH, homog, Matrix.mulVec, Matrix.dotProduct, Fin.sum_univ_four]
  cases oglNdc <;> simp <;> field_simp <;> ring

/-- Helper: depth of a point on the far plane `z = -far` under `frustumRH`. -/
theorem frustumRH_depth_far (left right bottom top near far x y : ℝ) (oglNdc : Bool)
    (hf : far ≠ 0) (hnf : far ≠ near) :
    ndcDepth (frustumRH left right bottom top near far oglNdc) ![x, y, -far] = 1 := by
  have hd : far - near ≠ 0 := sub_ne_zero.mpr hnf
  simp [ndcDepth, frustumRH, homog, Matrix.mulVec, Matrix.dotProduct, Fin.sum_univ_four]
  cases oglNdc <;> simp <;> field_simp <;> ring

/-- Helper: depth of a point on the near plane `z = near` under `perspectiveLH`. -/
theorem perspectiveLH_depth_near (fovy aspect near far x y : ℝ) (oglNdc : Bool)
    (hn : near ≠ 0) (hnf : far ≠ near) :
    ndcDepth (perspectiveLH fovy aspect near far oglNdc) ![x, y, near] =
      if oglNdc then -1 else 0 := by
  have hd : far - near ≠ 0 := sub_ne_zero.mpr hnf
  simp [ndcDepth, perspectiveLH, homog, Matrix.mulVec, Matrix.dotProduct, Fin.sum_univ_four]
  cases oglNdc <;> simp <;> field_simp <;> ring

/-- Helper: depth of a point on the far plane `z = far` under `perspectiveLH`. -/
theorem perspectiveLH_depth_far (fovy aspect near far x y : ℝ) (oglNdc : Bool)
    (hf : far ≠ 0) (hnf : far ≠ near) :
    ndcDepth (perspectiveLH fovy aspect near far oglNdc) ![x, y, far] = 1 := by
  have hd : far - near ≠ 0 := sub_ne_zero.mpr hnf
  simp [ndcDepth, perspectiveLH, homog, Matrix.mulVec, Matrix.dotProduct, Fin.sum_univ_four]
  cases oglNdc <;> simp <;> field_simp <;> ring

/-- Helper: depth of a point on the near plane `z = -near` under `perspectiveRH`. -/
theorem perspectiveRH_depth_near (fovy aspect near far x y : ℝ) (oglNdc : Bool)
    (hn : near ≠ 0) (hnf : far ≠ near) :
    ndcDepth (perspectiveRH fovy aspect near far oglNdc) ![x, y, -near] =
      if oglNdc then -1 else 0 := by
  have hd : far - near ≠ 0 := sub_ne_zero.mpr hnf
  simp [ndcDepth, perspectiveRH, homog, Matrix.mulVec, Matrix.dotProduct, Fin.sum_univ_four]
  cases oglNdc <;> simp <;> field_simp <;> ring

/-- Helper: depth of a point on the far plane `z = -far` under `perspectiveRH`. -/
theorem perspectiveRH_depth_far (fovy aspect near far x y : ℝ) (oglNdc : Bool)
    (hf : far ≠ 0) (hnf : far ≠ near) :
    ndcDepth (perspectiveRH fovy aspect near far oglNdc) ![x, y, -far] = 1 := by
  have hd : far - near ≠ 0 := sub_ne_zero.mpr hnf
  simp [ndcDepth, perspectiveRH, homog, Matrix.mulVec, Matrix.dotProduct, Fin.sum_univ_four]
  cases oglNdc <;> simp <;> field_simp <;> ring

/-- Helper: depth of a point on the near plane `z = near` under `perspectiveFovLH`. -/
theorem perspectiveFovLH_depth_near (fov width height near far x y : ℝ) (oglNdc : Bool)
    (hn : near ≠ 0) (hnf : far ≠ near) :
    ndcDepth (perspectiveFovLH fov width height near far oglNdc) ![x, y, near] =
      if oglNdc then -1 else 0 := by
  have hd : far - near ≠ 0 := sub_ne_zero.mpr hnf
  simp [ndcDepth, perspectiveFovLH, homog, Matrix.mulVec, Matrix.dotProduct,
    Fin.sum_univ_four]
  cases oglNdc <;> simp <;> field_simp <;> ring

/-- Helper: depth of a point on the far plane `z = far` under `perspectiveFovLH`. -/
theorem perspectiveFovLH_depth_far (fov width height near far x y : ℝ) (oglNdc : Bool)
    (hf : far ≠ 0) (hnf : far ≠ near) :
    ndcDepth (perspectiveFovLH fov width height near far oglNdc) ![x, y, far] = 1 := by
  have hd : far - near ≠ 0 := sub_ne_zero.mpr hnf
  simp [ndcDepth, perspectiveFovLH, homog, Matrix.mulVec, Matrix.dotProduct,
    Fin.sum_univ_four]
  cases oglNdc <;> simp <;> field_simp <;> ring

/-- Helper: depth of a point on the near plane `z = -near` under `perspectiveFovRH`. -/
theorem perspectiveFovRH_depth_near (fov width height near far x y : ℝ) (oglNdc : Bool)
    (hn : near ≠ 0) (hnf : far ≠ near) :
    ndcDepth (perspectiveFovRH fov width height near far oglNdc) ![x, y, -near] =
      if oglNdc then -1 else 0 := by
  have hd : far - near ≠ 0 := sub_ne_zero.mpr hnf
  simp [ndcDepth, perspectiveFovRH, homog, Matrix.mulVec, Matrix.dotProduct,
    Fin.sum_univ_four]
  cases oglNdc <;> simp <;> field_simp <;> ring

/-- Helper: depth of a point on the far plane `z = -far` under `perspectiveFovRH`. -/
theorem perspectiveFovRH_depth_far (fov width height near far x y : ℝ) (oglNdc : Bool)
    (hf : far ≠ 0) (hnf : far ≠ near) :
    ndcDepth (perspectiveFovRH fov width height near far oglNdc) ![x, y, -far] = 1 := by
  have hd : far - near ≠ 0 := sub_ne_zero.mpr hnf
  simp [ndcDepth, perspectiveFovRH, homog, Matrix.mulVec, Matrix.dotProduct,
    Fin.sum_univ_four]
  cases oglNdc <;> simp <;> field_simp <;> ring

/-- C4: every matrix-producing function (orthographic, frustum, perspective and
perspective-from-field-of-view, in all handedness variants) maps its near plane
to depth `-1` when the NDC flag is `true` and to depth `0` when it is `false`,
and its far plane to depth `1` in both cases, on all valid inputs: the
orthographic variants require only `far ≠ near` (so `zNear = 0` is covered),
while the projective variants â whose valid inputs have strictly positive clip
distances â are stated under the antecedents `near ≠ 0` (near-plane facts) and
`far ≠ 0` (far-plane facts).  Left-handed variants (and the default-handed
dispatchers) view planes at `z = near` and `z = far`, right-handed variants at
`z = -near` and `z = -far`.  Instantiating `perspective` at
`fovy = π/2, aspect = 1, near = 1/10, far = 100` gives the spec's example
mapping the centre of the near plane to depth `-1` (flag `true`) or `0`
(flag `false`). -/
theorem projection_depth_range
    (fovy aspect width height left right bottom top near far x y : ℝ) (oglNdc : Bool)
    (hnf : far ≠ near) :
    (ndcDepth (ortho left right bottom top near far oglNdc) ![x, y, near] =
      if oglNdc then -1 else 0) ∧
    ndcDepth (ortho left right bottom top near far oglNdc) ![x, y, far] = 1 ∧
    (ndcDepth (orthoLH left right bottom top near far oglNdc) ![x, y, near] =
      if oglNdc then -1 else 0) ∧
    ndcDepth (orthoLH left right bottom top near far oglNdc) ![x, y, far] = 1 ∧
    (ndcDepth (orthoRH left right bottom top near far oglNdc) ![x, y, -near] =
      if oglNdc then -1 else 0) ∧
    ndcDepth (orthoRH left right bottom top near far oglNdc) ![x, y, -far] = 1 ∧
    (near ≠ 0 →
      (ndcDepth (frustum left right bottom top near far oglNdc) ![x, y, near] =
        if oglNdc then -1 else 0) ∧
      (ndcDepth (frustumLH left right bottom top near far oglNdc) ![x, y, near] =
        if oglNdc then -1 else 0) ∧
      (ndcDepth (frustumRH left right bottom top near far oglNdc) ![x, y, -near] =
        if oglNdc then -1 else 0) ∧
      (ndcDepth (perspective fovy aspect near far oglNdc) ![x, y, near] =
        if oglNdc then -1 else 0) ∧
      (ndcDepth (perspectiveLH fovy aspect near far oglNdc) ![x, y, near] =
        if oglNdc then -1 else 0) ∧
      (ndcDepth (perspectiveRH fovy aspect near far oglNdc) ![x, y, -near] =
        if oglNdc then -1 else 0) ∧
      (ndcDepth (perspectiveFov fovy width height near far oglNdc) ![x, y, near] =
        if oglNdc then -1 else 0) ∧
      (ndcDepth (perspectiveFovLH fovy width height near far oglNdc) ![x, y, near] =
        if oglNdc then -1 else 0) ∧
      (ndcDepth (perspectiveFovRH fovy width height near far oglNdc) ![x, y, -near] =
        if oglNdc then -1 else 0)) ∧
    (far ≠ 0 →
      ndcDepth (frustum left right bottom top near far oglNdc) ![x, y, far] = 1 ∧
      ndcDepth (frustumLH left right bottom top near far oglNdc) ![x, y, far] = 1 ∧
      ndcDepth (frustumRH left right bottom top near far oglNdc) ![x, y, -far] = 1 ∧
      ndcDepth (perspective fovy aspect near far oglNdc) ![x, y, far] = 1 ∧
      ndcDepth (perspectiveLH fovy aspect near far oglNdc) ![x, y, far] = 1 ∧
      ndcDepth (perspectiveRH fovy aspect near far oglNdc) ![x, y, -far] = 1 ∧
      ndcDepth (perspectiveFov fovy width height near far oglNdc) ![x, y, far] = 1 ∧
      ndcDepth (perspectiveFovLH fovy width height near far oglNdc) ![x, y, far] = 1 ∧
      ndcDepth (perspectiveFovRH fovy width height near far oglNdc) ![x, y, -far] = 1) := by
  have ho : ortho left right bottom top near far oglNdc =
      orthoLH left right bottom top near far oglNdc := by
    simp [ortho, leftHandedDefault]
  have hfr : frustum left right bottom top near far oglNdc =
      frustumLH left right bottom top near far oglNdc := by
    simp [frustum, leftHandedDefault]
  have hp : perspective fovy aspect near far oglNdc =
      perspectiveLH fovy aspect near far oglNdc := by
    simp [perspective, leftHandedDefault]
  have hpf : perspectiveFov fovy width height near far oglNdc =
      perspectiveFovLH fovy width height near far oglNdc := by
    simp [perspectiveFov, leftHandedDefault]
  rw [ho, hfr, hp, hpf]
  refine ⟨orthoLH_depth_near left right bottom top near far x y oglNdc hnf,
    orthoLH_depth_far left right bottom top near far x y oglNdc hnf,
    orthoLH_depth_near left right bottom top near far x y oglNdc hnf,
    orthoLH_depth_far left right bottom top near far x y oglNdc hnf,
    orthoRH_depth_near left right bottom top near far x y oglNdc hnf,
    orthoRH_depth_far left right bottom top near far x y oglNdc hnf,
    fun hn => ⟨frustumLH_depth_near left right bottom top near far x y oglNdc hn hnf,
      frustumLH_depth_near left right bottom top near far x y oglNdc hn hnf,
      frustumRH_depth_near left right bottom top near far x y oglNdc hn hnf,
      perspectiveLH_depth_near fovy aspect near far x y oglNdc hn hnf,
      perspectiveLH_depth_near fovy aspect near far x y oglNdc hn hnf,
      perspectiveRH_depth_near fovy aspect near far x y oglNdc hn hnf,
      perspectiveFovLH_depth_near fovy width height near far x y oglNdc hn hnf,
      perspectiveFovLH_depth_near fovy width height near far x y oglNdc hn hnf,
      perspectiveFovRH_depth_near fovy width height near far x y oglNdc hn hnf⟩,
    fun hf => ⟨frustumLH_depth_far left right bottom top near far x y oglNdc hf hnf,
      frustumLH_depth_far left right bottom top near far x y oglNdc hf hnf,
      frustumRH_depth_far left right bottom top near far x y oglNdc hf hnf,
      perspectiveLH_depth_far fovy aspect near far x y oglNdc hf hnf,
      perspectiveLH_depth_far fovy aspect near far x y oglNdc hf hnf,
      perspectiveRH_depth_far fovy aspect near far x y oglNdc hf hnf,
      perspectiveFovLH_depth_far fovy width height near far x y oglNdc hf hnf,
      perspectiveFovLH_depth_far fovy width height near far x y oglNdc hf hnf,
      perspectiveFovRH_depth_far fovy width height near far x y oglNdc hf hnf⟩⟩

/-- Witness for `projection_depth_range`: the spec's example
`perspective(fovy = π/2, aspect = 1, near = 0.1, far = 100)` maps the centre of
the near plane to depth `-1` under `ndc = true` and to `0` under `ndc = false`
and the far plane to depth `1`; and `ortho` with the valid orthographic span
`zNear = 0, zFar = 1` maps its near face to depth `-1`. -/
theorem projection_depth_range_witness :
    ((100 : ℝ) ≠ 1 / 10) ∧ ((1 / 10 : ℝ) ≠ 0) ∧ ((100 : ℝ) ≠ 0) ∧ ((1 : ℝ) ≠ 0) ∧
    ndcDepth (perspective (Real.pi / 2) 1 (1 / 10) 100 true) ![0, 0, 1 / 10] = -1 ∧
    ndcDepth (perspective (Real.pi / 2) 1 (1 / 10) 100 false) ![0, 0, 1 / 10] = 0 ∧
    ndcDepth (perspective (Real.pi / 2) 1 (1 / 10) 100 true) ![0, 0, 100] = 1 ∧
    ndcDepth (ortho 0 1 0 2 0 1 true) ![5, 7, 0] = -1 := by
  refine ⟨by norm_num, by norm_num, by norm_num, by norm_num, ?_, ?_, ?_, ?_⟩
  · exact ((projection_depth_range (Real.pi / 2) 1 1 1 0 0 0 0 (1 / 10) 100 0 0 true
      (by norm_num)).2.2.2.2.2.2.1 (by norm_num)).2.2.2.1
  · exact ((projection_depth_range (Real.pi / 2) 1 1 1 0 0 0 0 (1 / 10) 100 0 0 false
      (by norm_num)).2.2.2.2.2.2.1 (by norm_num)).2.2.2.1
  · exact ((projection_depth_range (Real.pi / 2) 1 1 1 0 0 0 0 (1 / 10) 100 0 0 true
      (by norm_num)).2.2.2.2.2.2.2 (by norm_num)).2.2.2.1
  · exact (projection_depth_range 1 1 1 1 0 1 0 2 0 1 5 7 true (by norm_num)).1

/-- C5: for every matrix-producing function and all inputs, the matrices
produced by two calls that differ only in the NDC flag agree in every entry
outside row 2 (the depth-mapping row); in particular the x- and y-mapping rows
(rows 0 and 1) are identical between the `ndc = true` and `ndc = false`
results. -/
theorem ndc_flag_changes_only_depth_row
    (fovy aspect width height left right bottom top near far : ℝ) (i j : Fin 4)
    (hi : i ≠ 2) :
    ortho left right bottom top near far true i j =
      ortho left right bottom top near far false i j ∧
    orthoLH left right bottom top near far true i j =
      orthoLH left right bottom top near far false i j ∧
    orthoRH left right bottom top near far true i j =
      orthoRH left right bottom top near far false i j ∧
    ortho2D left right bottom top true i j = ortho2D left right bottom top false i j ∧
    frustum left right bottom top near far true i j =
      frustum left right bottom top near far false i j ∧
    frustumLH left right bottom top near far true i j =
      frustumLH left right bottom top near far false i j ∧
    frustumRH left right bottom top near far true i j =
      frustumRH left right bottom top near far false i j ∧
    perspective fovy aspect near far true i j = perspective fovy aspect near far false i j ∧
    perspectiveLH fovy aspect near far true i j =
      perspectiveLH fovy aspect near far false i j ∧
    perspectiveRH fovy aspect near far true i j =
      perspectiveRH fovy aspect near far false i j ∧
    perspectiveFov fovy width height near far true i j =
      perspectiveFov fovy width height near far false i j ∧
    perspectiveFovLH fovy width height near far true i j =
      perspectiveFovLH fovy width height near far false i j ∧
    perspectiveFovRH fovy width height near far true i j =
      perspectiveFovRH fovy width height near far false i j := by
  fin_cases i
  · refine ⟨?_, ?_, ?_, ?_, ?_, ?_, ?_, ?_, ?_, ?_, ?_, ?_, ?_⟩ <;>
      simp [ortho, orthoLH, orthoRH, ortho2D, frustum, frustumLH, frustumRH,
        perspective, perspectiveLH, perspectiveRH, perspectiveFov,
        perspectiveFovLH, perspectiveFovRH, leftHandedDefault]
  · refine ⟨?_, ?_, ?_, ?_, ?_, ?_, ?_, ?_, ?_, ?_, ?_, ?_, ?_⟩ <;>
      simp [ortho, orthoLH, orthoRH, ortho2D, frustum, frustumLH, frustumRH,
        perspective, perspectiveLH, perspectiveRH, perspectiveFov,
        perspectiveFovLH, perspectiveFovRH, leftHandedDefault]
  · exact absurd rfl hi
  · refine ⟨?_, ?_, ?_, ?_, ?_, ?_, ?_, ?_, ?_, ?_, ?_, ?_, ?_⟩ <;>
      simp [ortho, orthoLH, orthoRH, ortho2D, frustum, frustumLH, frustumRH,
        perspective, perspectiveLH, perspectiveRH, perspectiveFov,
        perspectiveFovLH, perspectiveFovRH, leftHandedDefault]

/-- Witness for `ndc_flag_changes_only_depth_row` at row 0, column 2. -/
theorem ndc_flag_changes_only_depth_row_witness :
    ((0 : Fin 4) ≠ 2) ∧
    (ortho 0 1 0 1 1 2 true 0 2 = ortho 0 1 0 1 1 2 false 0 2 ∧
     orthoLH 0 1 0 1 1 2 true 0 2 = orthoLH 0 1 0 1 1 2 false 0 2 ∧
     orthoRH 0 1 0 1 1 2 true 0 2 = orthoRH 0 1 0 1 1 2 false 0 2 ∧
     ortho2D 0 1 0 1 true 0 2 = ortho2D 0 1 0 1 false 0 2 ∧
     frustum 0 1 0 1 1 2 true 0 2 = frustum 0 1 0 1 1 2 false 0 2 ∧
     frustumLH 0 1 0 1 1 2 true 0 2 = frustumLH 0 1 0 1 1 2 false 0 2 ∧
     frustumRH 0 1 0 1 1 2 true 0 2 = frustumRH 0 1 0 1 1 2 false 0 2 ∧
     perspective 1 2 1 2 true 0 2 = perspective 1 2 1 2 false 0 2 ∧
     perspectiveLH 1 2 1 2 true 0 2 = perspectiveLH 1 2 1 2 false 0 2 ∧
     perspectiveRH 1 2 1 2 true 0 2 = perspectiveRH 1 2 1 2 false 0 2 ∧
     perspectiveFov 1 3 4 1 2 true 0 2 = perspectiveFov 1 3 4 1 2 false 0 2 ∧
     perspectiveFovLH 1 3 4 1 2 true 0 2 = perspectiveFovLH 1 3 4 1 2 false 0 2 ∧
     perspectiveFovRH 1 3 4 1 2 true 0 2 = perspectiveFovRH 1 3 4 1 2 false 0 2) :=
  ⟨by decide, ndc_flag_changes_only_depth_row 1 2 3 4 0 1 0 1 1 2 0 2 (by decide)⟩

/-- Helper: the vertical scale `cos/sin` computed by `perspectiveFov` equals
the vertical scale `1/tan` of `perspective`. -/
theorem fov_scale_vertical (fovy : ℝ) :
    Real.cos (fovy / 2) / Real.sin (fovy / 2) = 1 / Real.tan (fovy / 2) := by
  rw [Real.tan_eq_sin_div_cos, one_div_div]

/-- C2: for every field of view, aspect ratio, clip distances, NDC flag and
every height `H > 0`, `perspectiveFov(fovy, aspect*H, H, near, far, ndc)` equals
`perspective(fovy, aspect, near, far, ndc)` — over the reals the two are equal
exactly, not merely within floating-point tolerance. -/
theorem perspectiveFov_consistent_with_perspective
    (fovy aspect near far H : ℝ) (oglNdc : Bool) (hH : 0 < H) :
    perspectiveFov fovy (aspect * H) H near far oglNdc =
      perspective fovy aspect near far oglNdc := by
  ext i j
  fin_cases i <;> fin_cases j <;>
    simp [perspectiveFov, perspective, leftHandedDefault, perspectiveFovLH,
      perspectiveLH, fov_scale_vertical fovy]
  rw [mul_div_assoc, mul_comm aspect H, div_mul_eq_div_div, div_self hH.ne', one_div]

/-- Witness for `perspectiveFov_consistent_with_perspective` at `H = 2`. -/
theorem perspectiveFov_consistent_with_perspective_witness :
    (0 : ℝ) < 2 ∧ perspectiveFov 1 (3 * 2) 2 (1 / 10) 100 true =
      perspective 1 3 (1 / 10) 100 true :=
  ⟨by norm_num,
    perspectiveFov_consistent_with_perspective 1 3 (1 / 10) 100 2 true (by norm_num)⟩

/-- C9: `perspectiveRH` and `perspectiveLH` interpret their field-of-view
argument in radians, in the same unit as `perspective` — all three compute
their scale entries as `1 / tan(fovy / 2)` with the radian-based real tangent
applied directly to the argument, the parameter documentation saying "in
degrees" notwithstanding — and `perspective` equals `perspectiveLH`, the
variant matching the library's configured default handedness. -/
theorem perspective_variants_radians_and_dispatch
    (fovy aspect near far : ℝ) (oglNdc : Bool) :
    perspective fovy aspect near far oglNdc = perspectiveLH fovy aspect near far oglNdc ∧
    perspectiveRH fovy aspect near far oglNdc 0 0 = 1 / (aspect * Real.tan (fovy / 2)) ∧
    perspectiveRH fovy aspect near far oglNdc 1 1 = 1 / Real.tan (fovy / 2) ∧
    perspectiveLH fovy aspect near far oglNdc 0 0 = 1 / (aspect * Real.tan (fovy / 2)) ∧
    perspectiveLH fovy aspect near far oglNdc 1 1 = 1 / Real.tan (fovy / 2) := by
  refine ⟨by simp [perspective, leftHandedDefault], ?_, ?_, ?_, ?_⟩ <;>
    simp [perspectiveRH, perspectiveLH]

/-- C10: for every viewport component type `U` and conversion `toT` to the
computation scalar type, `project` and `unProject` over a `U`-valued viewport
equal the scalar versions applied to the converted viewport rectangle: `U`
affects only how the viewport rectangle is read, never the type or value of the
3-component result, and the clip-space `w` component is consumed by the
perspective divide, not exposed in the return value. -/
theorem project_unProject_viewport_type_generic {U : Type} (toT : U → ℝ)
    (obj win : V3) (model proj : M4) (viewport : Fin 4 → U) (oglNdc : Bool) :
    projectU toT obj model proj viewport oglNdc =
      project obj model proj (fun i => toT (viewport i)) oglNdc ∧
    unProjectU toT win model proj viewport oglNdc =
      unProject win model proj (fun i => toT (viewport i)) oglNdc :=
  ⟨rfl, rfl⟩

/-- Helper: undoing the window mapping `x * 1/2 + 1/2` recovers `x`. -/
theorem half_affine_cancel (a : ℝ) : (a * (1 / 2) + 1 / 2) * 2 - 1 = a := by ring

/-- C1 (counterexample to the unrestricted round trip): with the invertible
matrices `model = 1` and `proj = sampleProj`, the round trip fails at the point
`p = (0,0,0)` with viewport `(0,0,1,1)` (the clip-space `w` component of `p` is
`0`, the perspective divide is degenerate, and the result is `(0,0,1/2)`, not
`p`), and also at the well-projecting point `p = (0,0,1)` when the viewport has
zero width and height.  The round trip therefore does not hold for every point
and every viewport merely because `model` and `proj` are invertible. -/
theorem roundtrip_fails_at_zero_clip_w :
    IsUnit (1 : M4).det ∧ IsUnit sampleProj.det ∧
    unProject (project ![0, 0, 0] 1 sampleProj ![0, 0, 1, 1] true)
        1 sampleProj ![0, 0, 1, 1] true ≠ ![0, 0, 0] ∧
    unProject (project ![0, 0, 1] 1 sampleProj ![0, 0, 0, 0] true)
        1 sampleProj ![0, 0, 0, 0] true ≠ ![0, 0, 1] := by
  have hdet : sampleProj.det = 1 := by
    simp [sampleProj, Matrix.det_succ_row_zero, Fin.sum_univ_succ]
  have hPQ : sampleProj * sampleProjInv = 1 := by
    ext i j
    fin_cases i <;> fin_cases j <;>
      simp [sampleProj, sampleProjInv, Matrix.mul_apply, Fin.sum_univ_four,
        Matrix.one_apply, Matrix.vecHead, Matrix.vecTail]
  have hinv : sampleProj⁻¹ = sampleProjInv := Matrix.inv_eq_right_inv hPQ
  refine ⟨by simp, by simp [hdet], ?_, ?_⟩
  · have hwin : project ![0, 0, 0] 1 sampleProj ![0, 0, 1, 1] true =
        ![1 / 2, 1 / 2, 0] := by
      funext i
      fin_cases i <;>
        simp [project, sampleProj, homog, Matrix.one_mulVec, Matrix.mulVec,
          Matrix.dotProduct, Fin.sum_univ_four]
    rw [hwin]
    have hres : unProject ![1 / 2, 1 / 2, 0] 1 sampleProj ![0, 0, 1, 1] true =
        ![0, 0, 1 / 2] := by
      funext i
      fin_cases i <;>
        simp [unProject, hinv, sampleProjInv, Matrix.mulVec, Matrix.dotProduct,
          Fin.sum_univ_four]
    rw [hres]
    intro h
    have h2 := congrFun h 2
    norm_num at h2
  · have hwin : project ![0, 0, 1] 1 sampleProj ![0, 0, 0, 0] true =
        ![0, 0, 1] := by
      funext i
      fin_cases i <;>
        norm_num [project, sampleProj, homog, Matrix.one_mulVec, Matrix.mulVec,
          Matrix.dotProduct, Fin.sum_univ_four, Matrix.one_apply, Matrix.vecHead,
          Matrix.vecTail]
    rw [hwin]
    have hres : unProject ![0, 0, 1] 1 sampleProj ![0, 0, 0, 0] true =
        ![-1, -1, 1] := by
      funext i
      fin_cases i <;>
        norm_num [unProject, hinv, sampleProjInv, Matrix.mulVec, Matrix.dotProduct,
          Fin.sum_univ_four, Matrix.one_apply, Matrix.vecHead, Matrix.vecTail]
    rw [hres]
    intro h
    have h0 := congrFun h 0
    norm_num at h0

/-- C1 (amended): for every object-space point `p`, invertible `model` and
`proj`, viewport with nonzero width and height, and either NDC flag, if the
clip-space `w` component of `p` (the last component of
`(proj * model) * (p, 1)`) is nonzero, then `unProject` applied to the result
of `project` with the same arguments returns `p` exactly (over the reals). -/
theorem unProject_project_roundtrip (p : V3) (model proj : M4) (viewport : V4)
    (oglNdc : Bool) (hM : IsUnit model.det) (hP : IsUnit proj.det)
    (hw : (proj * model).mulVec (homog p) 3 ≠ 0)
    (h2 : viewport 2 ≠ 0) (h3 : viewport 3 ≠ 0) :
    unProject (project p model proj viewport oglNdc) model proj viewport oglNdc = p := by
  have hA : IsUnit (proj * model).det := by
    rw [Matrix.det_mul]; exact hP.mul hM
  set c : V4 := (proj * model).mulVec (homog p) with hcdef
  have hwin : project p model proj viewport oglNdc =
      ![(c 0 / c 3 * (1 / 2) + 1 / 2) * viewport 2 + viewport 0,
        (c 1 / c 3 * (1 / 2) + 1 / 2) * viewport 3 + viewport 1,
        c 2 / c 3] := by
    simp only [project, Matrix.mulVec_mulVec]
  rw [hwin]
  simp only [unProject, Matrix.cons_val_zero, Matrix.cons_val_one, Matrix.head_cons,
    Matrix.cons_val_two, Matrix.tail_cons, add_sub_cancel_right]
  simp only [mul_div_cancel_right₀ _ h2, mul_div_cancel_right₀ _ h3, half_affine_cancel]
  have hvec : (![c 0 / c 3, c 1 / c 3, c 2 / c 3, 1] : V4) = (c 3)⁻¹ • c := by
    funext i
    fin_cases i <;>
      simp [div_eq_inv_mul, Pi.smul_apply, smul_eq_mul, inv_mul_cancel₀ hw]
  rw [hvec]
  have hsolve : ((proj * model)⁻¹).mulVec ((c 3)⁻¹ • c) = (c 3)⁻¹ • homog p := by
    rw [Matrix.mulVec_smul]
    congr 1
    rw [hcdef, Matrix.mulVec_mulVec, Matrix.nonsing_inv_mul _ hA, Matrix.one_mulVec]
  rw [hsolve]
  have hinv : (c 3)⁻¹ ≠ 0 := inv_ne_zero hw
  funext i
  fin_cases i <;>
    simp [homog, Pi.smul_apply, smul_eq_mul, mul_div_mul_left _ _ hinv] <;> field_simp

/-- Witness for `unProject_project_roundtrip` at a concrete nondegenerate
input: the point `(0,0,1)` with `model = 1`, `proj = sampleProj` and viewport
`(0,0,1,1)` round-trips exactly. -/
theorem unProject_project_roundtrip_witness :
    IsUnit (1 : M4).det ∧ IsUnit sampleProj.det ∧
    (sampleProj * (1 : M4)).mulVec (homog ![0, 0, 1]) 3 ≠ 0 ∧
    (![0, 0, 1, 1] : V4) 2 ≠ 0 ∧ (![0, 0, 1, 1] : V4) 3 ≠ 0 ∧
    unProject (project ![0, 0, 1] 1 sampleProj ![0, 0, 1, 1] true)
        1 sampleProj ![0, 0, 1, 1] true = ![0, 0, 1] := by
  refine ⟨by simp, ?_, ?_, ?_, ?_, ?_⟩
  · have hdet : sampleProj.det = 1 := by
      simp [sampleProj, Matrix.det_succ_row_zero, Fin.sum_univ_succ]
    simp [hdet]
  · simp [sampleProj, homog, Matrix.mulVec, Matrix.dotProduct, Fin.sum_univ_four]
  · norm_num
  · norm_num
  · exact unProject_project_roundtrip ![0, 0, 1] 1 sampleProj ![0, 0, 1, 1] true
      (by simp)
      (by simp [sampleProj, Matrix.det_succ_row_zero, Fin.sum_univ_succ])
      (by simp [sampleProj, homog, Matrix.mulVec, Matrix.dotProduct, Fin.sum_univ_four])
      (by norm_num) (by norm_num)

end glm
